import Mathlib

/-!
Verification of the git-memories contribution-discovery engine.

This file shallowly embeds the engine of the repository: the calendar / JS
Date arithmetic used to build the target-day window, the activity-window
filter (RepositoryAPI.findActiveReposOnDate), the per-repository commit and
pull-request fetchers (CommitAPI.getCommitsForRepoOnDate,
PullRequestAPI.getPullRequestsForRepoOnDate), the per-year loops
(CommitAPI.getCommitsFromActiveRepos,
PullRequestAPI.getPullRequestsFromActiveRepos,
ContributionsAPI.getContributionsFromActiveRepos), the aggregator
(ContributionsAPI.getContributionsOnDate, the code path reachable from the
CLI entry point src/index.ts), and the superseded legacy fetcher
GitHubAPI.getContributionsFromActiveRepos from src/github-api.ts.

Network I/O is abstracted by a Host record of oracles: what the GitHub REST
API returns for a commits request (username, repo, since, until) and a
pulls request (username, repo, since).  Timestamps are modelled as UTC
calendar components (the machine-local timezone is taken to be UTC), and
JS Date comparison (epoch milliseconds) becomes lexicographic comparison of
components, which agrees with epoch order for in-range components.
-/

/-- UTC calendar timestamp, the model of a JS `Date` value.  Comparison of
JS Dates by epoch milliseconds corresponds to lexicographic comparison of
the components for in-range component values. -/
structure DateTime where
  year : Int
  month : Int
  day : Int
  hour : Int
  minute : Int
  second : Int
deriving Repr, DecidableEq

/-- Gregorian leap-year test, as used by JS Date arithmetic. -/
def isLeap (y : Int) : Bool :=
  y % 4 == 0 && (y % 100 != 0 || y % 400 == 0)

/-- Number of days of month `m` (1-based) of year `y`. -/
def daysInMonth (y m : Int) : Int :=
  if m = 1 then 31
  else if m = 2 then (if isLeap y then 29 else 28)
  else if m = 3 then 31
  else if m = 4 then 30
  else if m = 5 then 31
  else if m = 6 then 30
  else if m = 7 then 31
  else if m = 8 then 31
  else if m = 9 then 30
  else if m = 10 then 31
  else if m = 11 then 30
  else 31

/-- Strict order on timestamps: the model of `dateA < dateB` on JS Dates
(epoch-millisecond comparison), rendered lexicographically. -/
def DateTime.lt (a b : DateTime) : Prop :=
  a.year < b.year ∨ (a.year = b.year ∧
    (a.month < b.month ∨ (a.month = b.month ∧
      (a.day < b.day ∨ (a.day = b.day ∧
        (a.hour < b.hour ∨ (a.hour = b.hour ∧
          (a.minute < b.minute ∨ (a.minute = b.minute ∧
            a.second < b.second)))))))))

instance (a b : DateTime) : Decidable (DateTime.lt a b) := by
  unfold DateTime.lt; infer_instance

/-- Non-strict order on timestamps: the model of `dateA >= dateB` style JS
comparisons. -/
def DateTime.le (a b : DateTime) : Prop :=
  DateTime.lt a b ∨ a = b

instance (a b : DateTime) : Decidable (DateTime.le a b) := by
  unfold DateTime.le; infer_instance

/-- A timestamp whose components are in calendar range (what any timestamp
parsed from a real ISO-8601 string of the host satisfies). -/
def DateTime.valid (t : DateTime) : Prop :=
  1 ≤ t.month ∧ t.month ≤ 12 ∧
  1 ≤ t.day ∧ t.day ≤ daysInMonth t.year t.month ∧
  0 ≤ t.hour ∧ t.hour ≤ 23 ∧
  0 ≤ t.minute ∧ t.minute ≤ 59 ∧
  0 ≤ t.second ∧ t.second ≤ 59

instance (t : DateTime) : Decidable (DateTime.valid t) := by
  unfold DateTime.valid; infer_instance

/-- Model of the source expression `new Date(year, month - 1, day)` (local
time = UTC): midnight of the given civil date, with JS day-overflow
normalization.  `month` is 1-based here (the source passes `month - 1` to
the 0-based JS constructor).  Faithful for `1 ≤ month ≤ 12` and
`1 ≤ day ≤ daysInMonth year month + 31`, which covers every use in the
engine (`day` comes validated to `1..31` and is incremented at most once). -/
def jsDate (year month day : Int) : DateTime :=
  if day ≤ daysInMonth year month then
    ⟨year, month, day, 0, 0, 0⟩
  else if month < 12 then
    ⟨year, month + 1, day - daysInMonth year month, 0, 0, 0⟩
  else
    ⟨year + 1, 1, day - daysInMonth year 12, 0, 0, 0⟩

set_option maxHeartbeats 1000000 in
theorem daysInMonth_pos (y m : Int) : 1 ≤ daysInMonth y m := by
  unfold daysInMonth; split_ifs <;> omega

/-- Core calendar fact: a valid timestamp inside the half-open day window
`[jsDate Y M D, jsDate Y M (D+1))` has exactly the components `(Y, M, D)`,
provided `(M, D)` is a valid calendar date of year `Y`. -/
theorem window_components (Y M D : Int) (t : DateTime)
    (hM1 : 1 ≤ M) (hM2 : M ≤ 12) (hD1 : 1 ≤ D) (hD2 : D ≤ daysInMonth Y M)
    (hv : t.valid)
    (h1 : DateTime.le (jsDate Y M D) t)
    (h2 : DateTime.lt t (jsDate Y M (D + 1))) :
    t.year = Y ∧ t.month = M ∧ t.day = D := by
  obtain ⟨ty, tm, td, th, tmi, ts⟩ := t
  show ty = Y ∧ tm = M ∧ td = D
  simp only [DateTime.valid] at hv
  obtain ⟨v1, v2, v3, v4, v5, v6, v7, v8, v9, v10⟩ := hv
  have hlow : jsDate Y M D = ⟨Y, M, D, 0, 0, 0⟩ := by
    unfold jsDate; rw [if_pos hD2]
  rw [hlow] at h1
  simp only [DateTime.le, DateTime.lt, DateTime.mk.injEq] at h1
  by_cases hroll : D + 1 ≤ daysInMonth Y M
  · -- no rollover: the upper bound is midnight of (Y, M, D+1)
    have hup : jsDate Y M (D + 1) = ⟨Y, M, D + 1, 0, 0, 0⟩ := by
      unfold jsDate; rw [if_pos hroll]
    rw [hup] at h2
    simp only [DateTime.lt] at h2
    refine ⟨by omega, by omega, by omega⟩
  · -- rollover: D is the last day of month M
    have hDlast : D = daysInMonth Y M := by omega
    by_cases hM12 : M < 12
    · have hup : jsDate Y M (D + 1) = ⟨Y, M + 1, D + 1 - daysInMonth Y M, 0, 0, 0⟩ := by
        unfold jsDate; rw [if_neg hroll, if_pos hM12]
      rw [hup] at h2
      have hday1 : D + 1 - daysInMonth Y M = 1 := by omega
      rw [hday1] at h2
      simp only [DateTime.lt] at h2
      have hy : ty = Y := by omega
      subst hy
      have hm : tm = M := by omega
      subst hm
      exact ⟨rfl, rfl, by omega⟩
    · have hMeq : M = 12 := by omega
      subst hMeq
      have hup : jsDate Y 12 (D + 1) = ⟨Y + 1, 1, D + 1 - daysInMonth Y 12, 0, 0, 0⟩ := by
        unfold jsDate; rw [if_neg hroll, if_neg (by omega)]
      rw [hup] at h2
      have hday1 : D + 1 - daysInMonth Y 12 = 1 := by omega
      rw [hday1] at h2
      simp only [DateTime.lt] at h2
      have hy : ty = Y := by omega
      subst hy
      have hm : tm = 12 := by omega
      subst hm
      exact ⟨rfl, rfl, by omega⟩

/-! ## Data model (src/types/github.ts) -/

/-- A repository as produced by RepositoryAPI.getUserRepositories: identity
plus the three derived year-granularity timestamps (GitHubRepository in
src/types/github.ts).  `ownerLogin` is the owner login reported by the
host. -/
structure GitHubRepository where
  name : String
  ownerLogin : String
  createdYear : Int
  updatedYear : Int
  pushedYear : Int
deriving Repr, DecidableEq

/-- The repository identity attached to commits and pull requests in the
output (the nested `repository: { name, owner: { login } }` object). -/
structure RepoRef where
  name : String
  ownerLogin : String
deriving Repr, DecidableEq

/-- GitHubCommit of src/types/github.ts. -/
structure GitHubCommit where
  message : String
  url : String
  repository : RepoRef
  pushedDate : DateTime
deriving Repr, DecidableEq

/-- GitHubPullRequest of src/types/github.ts. -/
structure GitHubPullRequest where
  title : String
  url : String
  repository : RepoRef
  createdAt : DateTime
  state : String
deriving Repr, DecidableEq

/-- Contribution of src/types/github.ts: one year paired with what was
found for it. -/
structure Contribution where
  year : Int
  commits : List GitHubCommit
  pullRequests : List GitHubPullRequest
deriving Repr, DecidableEq

/-- One raw commit item of the host response to `GET /repos/{owner}/{repo}/commits`,
response, restricted to the fields the engine reads
(`commit.message`, `html_url`, `commit.author.date`). -/
structure RawCommit where
  message : String
  htmlUrl : String
  authorDate : DateTime
deriving Repr, DecidableEq

/-- One raw item of the host response to `GET /repos/{owner}/{repo}/pulls`,
restricted to the fields the engine reads. -/
structure RawPullRequest where
  title : String
  htmlUrl : String
  created_at : DateTime
  state : String
deriving Repr, DecidableEq

/-- The network boundary: what the host returns for the two REST requests
the detail fetchers issue.  `commitsRaw username repo since until` models
`GET /repos/{username}/{repo}/commits?since&until&per_page`;
`pullsRaw username repo since` models
`GET /repos/{username}/{repo}/pulls?state=all&since&per_page` (note the
pulls request carries only the lower bound).  `Except.error` models a
thrown `GitHub API error`. -/
structure Host where
  commitsRaw : String → String → DateTime → DateTime → Except String (List RawCommit)
  pullsRaw : String → String → DateTime → Except String (List RawPullRequest)

/-- One REST request issued by a detail fetcher, for call-count /
call-order reasoning. -/
inductive ApiRequest where
  | commitsReq (repoName : String)
  | pullsReq (repoName : String)
deriving Repr, DecidableEq

/-! ## Activity window filter (src/github/repositories.ts) -/

/-- GITHUB_CONFIG.MAX_REPOS_PER_YEAR from src/utils/constants.ts. -/
def MAX_REPOS_PER_YEAR : Nat := 10

/-- The per-year candidate predicate-filter inside
RepositoryAPI.findActiveReposOnDate (src/github/repositories.ts lines
62-74): `repo.createdYear <= year && (repo.updatedYear >= year ||
repo.pushedYear >= year)`. -/
def candidateFilter (repos : List GitHubRepository) (year : Int) : List GitHubRepository :=
  repos.filter (fun repo =>
    let wasCreatedBefore := decide (repo.createdYear ≤ year)
    let wasUpdatedAfter := decide (repo.updatedYear ≥ year)
    let wasPushedAfter := decide (repo.pushedYear ≥ year)
    wasCreatedBefore && (wasUpdatedAfter || wasPushedAfter))

/-- The year sequence of the source loop
`for (let year = startYear; year <= endYear; year++)`. -/
def yearRange (startYear endYear : Int) : List Int :=
  (List.range (endYear + 1 - startYear).toNat).map (fun (i : Nat) => startYear + (i : Int))

/-- RepositoryAPI.findActiveReposOnDate (src/github/repositories.ts lines
51-86): for each year of the range, filter the inventory and, when the
filter is non-empty, record the first MAX_REPOS_PER_YEAR candidates
(`activeRepos.slice(0, GITHUB_CONFIG.MAX_REPOS_PER_YEAR)`).  The JS
`Record<number, ...>` with integer keys enumerates in ascending key order,
which is also insertion order here, so it is modelled as an association
list in loop order.  The `month`/`day` arguments are accepted and unused,
exactly as in the source. -/
def findActiveReposOnDate (repos : List GitHubRepository) (month day startYear endYear : Int) :
    List (Int × List GitHubRepository) :=
  (yearRange startYear endYear).filterMap (fun year =>
    let activeRepos := candidateFilter repos year
    if activeRepos.length > 0 then
      some (year, activeRepos.take MAX_REPOS_PER_YEAR)
    else
      none)

/-! ## Per-repository detail fetchers (src/github/commits.ts,
src/auth/storage.ts part 2 = pull-requests.ts) -/

/-- The commit mapping inside CommitAPI.getCommitsForRepoOnDate: the
repository identity is rebuilt from the `username` and `repoName`
arguments, and `pushedDate` is taken from `commit.commit.author.date`. -/
def toGitHubCommit (username repoName : String) (c : RawCommit) : GitHubCommit :=
  { message := c.message
    url := c.htmlUrl
    repository := { name := repoName, ownerLogin := username }
    pushedDate := c.authorDate }

/-- CommitAPI.getCommitsForRepoOnDate (src/github/commits.ts lines 24-47):
issue the commits request for the window and map the response; the window
restriction itself is delegated to the host via `since`/`until`. -/
def getCommitsForRepoOnDate (host : Host) (username repoName : String)
    (startDate endDate : DateTime) : Except String (List GitHubCommit) :=
  (host.commitsRaw username repoName startDate endDate).map
    (fun commits => commits.map (toGitHubCommit username repoName))

/-- The pull-request mapping inside
PullRequestAPI.getPullRequestsForRepoOnDate: identity rebuilt from the
arguments, `state` upper-cased. -/
def toGitHubPullRequest (username repoName : String) (pr : RawPullRequest) : GitHubPullRequest :=
  { title := pr.title
    url := pr.htmlUrl
    repository := { name := repoName, ownerLogin := username }
    createdAt := pr.created_at
    state := pr.state.toUpper }

/-- PullRequestAPI.getPullRequestsForRepoOnDate (src/auth/storage.ts part
2, lines 103-132): issue the pulls request (lower bound only) and filter
locally by `prDate >= startDate && prDate < endDate` before mapping. -/
def getPullRequestsForRepoOnDate (host : Host) (username repoName : String)
    (startDate endDate : DateTime) : Except String (List GitHubPullRequest) :=
  (host.pullsRaw username repoName startDate).map
    (fun prs =>
      (prs.filter (fun pr =>
        decide (DateTime.le startDate pr.created_at) &&
        decide (DateTime.lt pr.created_at endDate))).map
      (toGitHubPullRequest username repoName))

/-! ## Per-year loops.  Each loop is modelled together with the list of
REST requests it issues (its request trace); the plain result is the first
projection.  `client.delay()` calls perform no observable action and are
not modelled. -/

/-- CommitAPI.getCommitsFromActiveRepos (src/github/commits.ts lines
52-82), instrumented with its request trace: for each candidate repository
issue one commits request for the day window; on success append the
commits, on a thrown error log-and-skip (the catch block). -/
def getCommitsFromActiveReposT (host : Host) (username : String)
    (year month day : Int) (activeRepos : List GitHubRepository) :
    List GitHubCommit × List ApiRequest :=
  let targetDate := jsDate year month day
  let nextDay := jsDate year month (day + 1)
  activeRepos.foldl (fun acc repo =>
    let trace := acc.2 ++ [ApiRequest.commitsReq repo.name]
    match getCommitsForRepoOnDate host username repo.name targetDate nextDay with
    | Except.ok repoCommits => (acc.1 ++ repoCommits, trace)
    | Except.error _ => (acc.1, trace)) ([], [])

/-- CommitAPI.getCommitsFromActiveRepos, result only. -/
def getCommitsFromActiveRepos (host : Host) (username : String)
    (year month day : Int) (activeRepos : List GitHubRepository) : List GitHubCommit :=
  (getCommitsFromActiveReposT host username year month day activeRepos).1

/-- PullRequestAPI.getPullRequestsFromActiveRepos (src/auth/storage.ts
part 2, lines 137-167), instrumented with its request trace: one pulls
request per candidate repository — unconditionally — with the same
log-and-skip error handling. -/
def getPullRequestsFromActiveReposT (host : Host) (username : String)
    (year month day : Int) (activeRepos : List GitHubRepository) :
    List GitHubPullRequest × List ApiRequest :=
  let targetDate := jsDate year month day
  let nextDay := jsDate year month (day + 1)
  activeRepos.foldl (fun acc repo =>
    let trace := acc.2 ++ [ApiRequest.pullsReq repo.name]
    match getPullRequestsForRepoOnDate host username repo.name targetDate nextDay with
    | Except.ok repoPRs => (acc.1 ++ repoPRs, trace)
    | Except.error _ => (acc.1, trace)) ([], [])

/-- PullRequestAPI.getPullRequestsFromActiveRepos, result only. -/
def getPullRequestsFromActiveRepos (host : Host) (username : String)
    (year month day : Int) (activeRepos : List GitHubRepository) : List GitHubPullRequest :=
  (getPullRequestsFromActiveReposT host username year month day activeRepos).1

/-- ContributionsAPI.getContributionsFromActiveRepos (src/github/commits.ts
part 2, lines 199-229): the live per-year detail fetch, which runs the two
loops above via `Promise.all` and pairs the results.  The two loops run
concurrently, so their requests interleave; the trace here is their
concatenation, adequate for membership (is a request ever issued) and
per-loop-count reasoning. -/
def getContributionsFromActiveReposT (host : Host) (username : String)
    (year month day : Int) (activeRepos : List GitHubRepository) :
    Contribution × List ApiRequest :=
  let commitsT := getCommitsFromActiveReposT host username year month day activeRepos
  let pullsT := getPullRequestsFromActiveReposT host username year month day activeRepos
  ({ year := year, commits := commitsT.1, pullRequests := pullsT.1 },
   commitsT.2 ++ pullsT.2)

/-- ContributionsAPI.getContributionsFromActiveRepos, result only. -/
def getContributionsFromActiveRepos (host : Host) (username : String)
    (year month day : Int) (activeRepos : List GitHubRepository) : Contribution :=
  (getContributionsFromActiveReposT host username year month day activeRepos).1

/-- The superseded legacy per-year detail fetch
GitHubAPI.getContributionsFromActiveRepos (src/github-api.ts lines
180-228), instrumented with its request trace.  It is sequential: for each
repository it issues the commits request, appends the commits on success,
and issues the pulls request **only when that repository returned at least
one commit** (`if (repoCommits.length > 0)`); any error thrown by either
request of the iteration is caught after the commits were already
appended. -/
def legacyGetContributionsFromActiveReposT (host : Host) (username : String)
    (year month day : Int) (activeRepos : List GitHubRepository) :
    Contribution × List ApiRequest :=
  let targetDate := jsDate year month day
  let nextDay := jsDate year month (day + 1)
  let step := fun (acc : List GitHubCommit × List GitHubPullRequest × List ApiRequest)
      (repo : GitHubRepository) =>
    let trace0 := acc.2.2 ++ [ApiRequest.commitsReq repo.name]
    match getCommitsForRepoOnDate host username repo.name targetDate nextDay with
    | Except.error _ => (acc.1, acc.2.1, trace0)
    | Except.ok repoCommits =>
      let commits := acc.1 ++ repoCommits
      if repoCommits.length > 0 then
        let trace1 := trace0 ++ [ApiRequest.pullsReq repo.name]
        match getPullRequestsForRepoOnDate host username repo.name targetDate nextDay with
        | Except.error _ => (commits, acc.2.1, trace1)
        | Except.ok repoPRs => (commits, acc.2.1 ++ repoPRs, trace1)
      else
        (commits, acc.2.1, trace0)
  let folded := activeRepos.foldl step ([], [], [])
  ({ year := year, commits := folded.1, pullRequests := folded.2.1 }, folded.2.2)

/-! ## Aggregator (src/github/commits.ts part 2 = contributions.ts) -/

/-- Descending insertion of one year into an already descending list. -/
def insertYearDesc (y : Int) : List Int → List Int
  | [] => [y]
  | x :: xs => if x ≤ y then y :: x :: xs else x :: insertYearDesc y xs

/-- Model of `Object.keys(activeReposByYear).sort((a, b) => parseInt(b) -
parseInt(a))` (src/github/commits.ts part 2, lines 153-155): the plan
keys sorted newest-first.  JS sort with this comparator produces the
stable descending reordering; insertion sort produces the same list (the
keys are distinct years, so every descending reordering is the same
list). -/
def sortYearsDesc (years : List Int) : List Int :=
  years.foldr insertYearDesc []

/-- The years the aggregator iterates over, in processing order. -/
def processedYears (plan : List (Int × List GitHubRepository)) : List Int :=
  sortYearsDesc (plan.map Prod.fst)

/-- One iteration of the per-year loop of the aggregator (src/github/commits.ts
part 2, lines 157-186), as the optional Contribution it appends: look the
year up in the plan, re-check non-emptiness, fetch, and keep the year only
if it yielded at least one commit or pull request. -/
def planEntryContribution (host : Host) (username : String) (month day : Int)
    (plan : List (Int × List GitHubRepository)) (year : Int) : Option Contribution :=
  match plan.lookup year with
  | none => none
  | some activeRepos =>
    if activeRepos.length > 0 then
      let yearContributions :=
        getContributionsFromActiveRepos host username year month day activeRepos
      if yearContributions.commits.length > 0 ∨
          yearContributions.pullRequests.length > 0 then
        some yearContributions
      else
        none
    else
      none

/-- ContributionsAPI.getContributionsOnDate (src/github/commits.ts part 2,
lines 127-194), the aggregator on the code path reachable from
src/index.ts: build the plan from the (already fetched) inventory, sort
the plan years newest-first, and run the per-year loop, pushing each
non-empty year Contribution.  The inventory fetch itself is network I-O
and enters as the `repos` argument. -/
def getContributionsOnDate (host : Host) (username : String)
    (repos : List GitHubRepository) (month day startYear endYear : Int) :
    List Contribution :=
  let activeReposByYear := findActiveReposOnDate repos month day startYear endYear
  let years := processedYears activeReposByYear
  years.foldl (fun contributions year =>
    contributions ++
      (planEntryContribution host username month day activeReposByYear year).toList) []

/-! ## Loop characterizations -/

/-- The commits one repository contributes to a per-year loop: its fetched
commits on success, nothing when the fetch throws. -/
def repoCommitsOrEmpty (host : Host) (username : String)
    (targetDate nextDay : DateTime) (repo : GitHubRepository) : List GitHubCommit :=
  match getCommitsForRepoOnDate host username repo.name targetDate nextDay with
  | Except.ok cs => cs
  | Except.error _ => []

/-- The pull requests one repository contributes to the live pulls loop. -/
def repoPullsOrEmpty (host : Host) (username : String)
    (targetDate nextDay : DateTime) (repo : GitHubRepository) : List GitHubPullRequest :=
  match getPullRequestsForRepoOnDate host username repo.name targetDate nextDay with
  | Except.ok ps => ps
  | Except.error _ => []

theorem getCommitsFromActiveReposT_eq (host : Host) (username : String)
    (year month day : Int) (activeRepos : List GitHubRepository) :
    getCommitsFromActiveReposT host username year month day activeRepos =
      (activeRepos.flatMap
        (repoCommitsOrEmpty host username (jsDate year month day) (jsDate year month (day + 1))),
       activeRepos.map (fun r => ApiRequest.commitsReq r.name)) := by
  unfold getCommitsFromActiveReposT
  generalize jsDate year month day = targetDate
  generalize jsDate year month (day + 1) = nextDay
  suffices h : ∀ (l : List GitHubRepository) (cs : List GitHubCommit) (tr : List ApiRequest),
      l.foldl (fun acc repo =>
        let trace := acc.2 ++ [ApiRequest.commitsReq repo.name]
        match getCommitsForRepoOnDate host username repo.name targetDate nextDay with
        | Except.ok repoCommits => (acc.1 ++ repoCommits, trace)
        | Except.error _ => (acc.1, trace)) (cs, tr) =
      (cs ++ l.flatMap (repoCommitsOrEmpty host username targetDate nextDay),
       tr ++ l.map (fun r => ApiRequest.commitsReq r.name)) by
    simpa using h activeRepos [] []
  intro l
  induction l with
  | nil => intro cs tr; simp
  | cons r l ih =>
    intro cs tr
    simp only [List.foldl_cons, List.flatMap_cons, List.map_cons]
    cases hfetch : getCommitsForRepoOnDate host username r.name targetDate nextDay with
    | ok rcs => rw [ih]; simp [repoCommitsOrEmpty, hfetch]
    | error e => rw [ih]; simp [repoCommitsOrEmpty, hfetch]

theorem getPullRequestsFromActiveReposT_eq (host : Host) (username : String)
    (year month day : Int) (activeRepos : List GitHubRepository) :
    getPullRequestsFromActiveReposT host username year month day activeRepos =
      (activeRepos.flatMap
        (repoPullsOrEmpty host username (jsDate year month day) (jsDate year month (day + 1))),
       activeRepos.map (fun r => ApiRequest.pullsReq r.name)) := by
  unfold getPullRequestsFromActiveReposT
  generalize jsDate year month day = targetDate
  generalize jsDate year month (day + 1) = nextDay
  suffices h : ∀ (l : List GitHubRepository) (ps : List GitHubPullRequest) (tr : List ApiRequest),
      l.foldl (fun acc repo =>
        let trace := acc.2 ++ [ApiRequest.pullsReq repo.name]
        match getPullRequestsForRepoOnDate host username repo.name targetDate nextDay with
        | Except.ok repoPRs => (acc.1 ++ repoPRs, trace)
        | Except.error _ => (acc.1, trace)) (ps, tr) =
      (ps ++ l.flatMap (repoPullsOrEmpty host username targetDate nextDay),
       tr ++ l.map (fun r => ApiRequest.pullsReq r.name)) by
    simpa using h activeRepos [] []
  intro l
  induction l with
  | nil => intro ps tr; simp
  | cons r l ih =>
    intro ps tr
    simp only [List.foldl_cons, List.flatMap_cons, List.map_cons]
    cases hfetch : getPullRequestsForRepoOnDate host username r.name targetDate nextDay with
    | ok rps => rw [ih]; simp [repoPullsOrEmpty, hfetch]
    | error e => rw [ih]; simp [repoPullsOrEmpty, hfetch]

/-- The pull requests one repository contributes in the legacy fetcher:
nothing unless its commit fetch succeeded with at least one commit. -/
def legacyRepoPulls (host : Host) (username : String)
    (targetDate nextDay : DateTime) (repo : GitHubRepository) : List GitHubPullRequest :=
  match getCommitsForRepoOnDate host username repo.name targetDate nextDay with
  | Except.error _ => []
  | Except.ok cs =>
    if cs.length > 0 then repoPullsOrEmpty host username targetDate nextDay repo else []

/-- The requests one repository causes in the legacy fetcher: always its
commits request, and its pulls request exactly when the commit fetch
succeeded non-empty. -/
def legacyRepoTrace (host : Host) (username : String)
    (targetDate nextDay : DateTime) (repo : GitHubRepository) : List ApiRequest :=
  ApiRequest.commitsReq repo.name ::
    (match getCommitsForRepoOnDate host username repo.name targetDate nextDay with
     | Except.error _ => []
     | Except.ok cs => if cs.length > 0 then [ApiRequest.pullsReq repo.name] else [])

theorem legacyGetContributionsFromActiveReposT_eq (host : Host) (username : String)
    (year month day : Int) (activeRepos : List GitHubRepository) :
    legacyGetContributionsFromActiveReposT host username year month day activeRepos =
      ({ year := year
         commits := activeRepos.flatMap
           (repoCommitsOrEmpty host username (jsDate year month day) (jsDate year month (day + 1)))
         pullRequests := activeRepos.flatMap
           (legacyRepoPulls host username (jsDate year month day) (jsDate year month (day + 1))) },
       activeRepos.flatMap
         (legacyRepoTrace host username (jsDate year month day) (jsDate year month (day + 1)))) := by
  unfold legacyGetContributionsFromActiveReposT
  generalize jsDate year month day = targetDate
  generalize jsDate year month (day + 1) = nextDay
  suffices h : ∀ (l : List GitHubRepository) (cs : List GitHubCommit)
      (ps : List GitHubPullRequest) (tr : List ApiRequest),
      l.foldl (fun acc repo =>
        let trace0 := acc.2.2 ++ [ApiRequest.commitsReq repo.name]
        match getCommitsForRepoOnDate host username repo.name targetDate nextDay with
        | Except.error _ => (acc.1, acc.2.1, trace0)
        | Except.ok repoCommits =>
          let commits := acc.1 ++ repoCommits
          if repoCommits.length > 0 then
            let trace1 := trace0 ++ [ApiRequest.pullsReq repo.name]
            match getPullRequestsForRepoOnDate host username repo.name targetDate nextDay with
            | Except.error _ => (commits, acc.2.1, trace1)
            | Except.ok repoPRs => (commits, acc.2.1 ++ repoPRs, trace1)
          else
            (commits, acc.2.1, trace0)) (cs, ps, tr) =
      (cs ++ l.flatMap (repoCommitsOrEmpty host username targetDate nextDay),
       ps ++ l.flatMap (legacyRepoPulls host username targetDate nextDay),
       tr ++ l.flatMap (legacyRepoTrace host username targetDate nextDay)) by
    have h2 := h activeRepos [] [] []
    simp at h2
    simp [h2]
  intro l
  induction l with
  | nil => intro cs ps tr; simp
  | cons r l ih =>
    intro cs ps tr
    simp only [List.foldl_cons, List.flatMap_cons]
    cases hfetch : getCommitsForRepoOnDate host username r.name targetDate nextDay with
    | error e =>
      rw [ih]
      simp [repoCommitsOrEmpty, legacyRepoPulls, legacyRepoTrace, hfetch]
    | ok rcs =>
      by_cases hlen : rcs.length > 0
      · simp only [if_pos hlen]
        cases hpfetch : getPullRequestsForRepoOnDate host username r.name targetDate nextDay with
        | error e =>
          rw [ih]
          simp [repoCommitsOrEmpty, legacyRepoPulls, legacyRepoTrace,
            repoPullsOrEmpty, hfetch, hpfetch, if_pos hlen]
        | ok rps =>
          rw [ih]
          simp [repoCommitsOrEmpty, legacyRepoPulls, legacyRepoTrace,
            repoPullsOrEmpty, hfetch, hpfetch, if_pos hlen]
      · simp only [if_neg hlen]
        rw [ih]
        simp [repoCommitsOrEmpty, legacyRepoPulls, legacyRepoTrace, hfetch, if_neg hlen]


/-! ## Sorting and plan lemmas -/

theorem mem_insertYearDesc (y a : Int) (l : List Int) :
    a ∈ insertYearDesc y l ↔ a = y ∨ a ∈ l := by
  induction l with
  | nil => simp [insertYearDesc]
  | cons x xs ih =>
    by_cases h : x ≤ y
    · simp [insertYearDesc, if_pos h]
    · simp only [insertYearDesc, if_neg h, List.mem_cons, ih]
      tauto

theorem insertYearDesc_perm (y : Int) (l : List Int) :
    List.Perm (insertYearDesc y l) (y :: l) := by
  induction l with
  | nil => simp [insertYearDesc]
  | cons x xs ih =>
    by_cases h : x ≤ y
    · simp [insertYearDesc, if_pos h]
    · simp only [insertYearDesc, if_neg h]
      exact (ih.cons x).trans (List.Perm.swap y x xs)

theorem sortYearsDesc_perm (l : List Int) : List.Perm (sortYearsDesc l) l := by
  induction l with
  | nil => simp [sortYearsDesc]
  | cons x xs ih =>
    unfold sortYearsDesc at ih ⊢
    simp only [List.foldr_cons]
    exact (insertYearDesc_perm x _).trans (ih.cons x)

theorem insertYearDesc_sorted (y : Int) (l : List Int)
    (h : l.Pairwise (· ≥ ·)) : (insertYearDesc y l).Pairwise (· ≥ ·) := by
  induction l with
  | nil => simp [insertYearDesc]
  | cons x xs ih =>
    rw [List.pairwise_cons] at h
    by_cases hxy : x ≤ y
    · rw [insertYearDesc, if_pos hxy, List.pairwise_cons]
      refine ⟨?_, List.Pairwise.cons h.1 h.2⟩
      intro a ha
      rcases List.mem_cons.mp ha with rfl | ha
      · omega
      · have := h.1 a ha; omega
    · rw [insertYearDesc, if_neg hxy, List.pairwise_cons]
      refine ⟨?_, ih h.2⟩
      intro a ha
      rcases (mem_insertYearDesc y a xs).mp ha with rfl | ha
      · omega
      · exact h.1 a ha

theorem sortYearsDesc_sorted (l : List Int) : (sortYearsDesc l).Pairwise (· ≥ ·) := by
  induction l with
  | nil => simp [sortYearsDesc]
  | cons x xs ih =>
    unfold sortYearsDesc at ih ⊢
    simp only [List.foldr_cons]
    exact insertYearDesc_sorted x _ ih

/-- Sorting a list of distinct years descending yields a strictly
descending list. -/
theorem sortYearsDesc_strict (l : List Int) (h : l.Pairwise (· ≠ ·)) :
    (sortYearsDesc l).Pairwise (· > ·) := by
  have hs := sortYearsDesc_sorted l
  have hn : (sortYearsDesc l).Pairwise (· ≠ ·) :=
    ((sortYearsDesc_perm l).pairwise_iff (fun hab => hab.symm)).mpr h
  exact (hs.and hn).imp (fun hab => by obtain ⟨h1, h2⟩ := hab; omega)

theorem yearRange_pairwise (startYear endYear : Int) :
    (yearRange startYear endYear).Pairwise (· < ·) := by
  unfold yearRange
  rw [List.pairwise_map]
  refine (List.pairwise_lt_range _).imp (fun {a b} hab => ?_)
  omega

theorem mem_yearRange (startYear endYear y : Int) :
    y ∈ yearRange startYear endYear ↔ startYear ≤ y ∧ y ≤ endYear := by
  unfold yearRange
  rw [List.mem_map]
  constructor
  · rintro ⟨i, hi, rfl⟩
    rw [List.mem_range] at hi
    omega
  · rintro ⟨h1, h2⟩
    refine ⟨(y - startYear).toNat, ?_, by omega⟩
    rw [List.mem_range]
    omega

/-- Membership in the activity plan: exactly the in-range years whose
candidate filter is non-empty, each carrying the first
MAX_REPOS_PER_YEAR candidates. -/
theorem mem_findActiveReposOnDate (repos : List GitHubRepository)
    (month day startYear endYear : Int) (y : Int) (l : List GitHubRepository) :
    (y, l) ∈ findActiveReposOnDate repos month day startYear endYear ↔
      y ∈ yearRange startYear endYear ∧ (candidateFilter repos y).length > 0 ∧
        l = (candidateFilter repos y).take MAX_REPOS_PER_YEAR := by
  unfold findActiveReposOnDate
  rw [List.mem_filterMap]
  constructor
  · rintro ⟨year, hy, hsome⟩
    by_cases hlen : (candidateFilter repos year).length > 0
    · rw [if_pos hlen] at hsome
      cases hsome
      exact ⟨hy, hlen, rfl⟩
    · rw [if_neg hlen] at hsome
      cases hsome
  · rintro ⟨hy, hlen, hl⟩
    exact ⟨y, hy, by rw [if_pos hlen, hl]⟩

theorem findActiveReposOnDate_keys_pairwise (repos : List GitHubRepository)
    (month day startYear endYear : Int) :
    ((findActiveReposOnDate repos month day startYear endYear).map Prod.fst).Pairwise
      (· < ·) := by
  unfold findActiveReposOnDate
  have h := yearRange_pairwise startYear endYear
  revert h
  generalize yearRange startYear endYear = ys
  induction ys with
  | nil => intro h; simp
  | cons x xs ih =>
    intro h
    rw [List.pairwise_cons] at h
    simp only [List.filterMap_cons]
    by_cases hlen : (candidateFilter repos x).length > 0
    · rw [if_pos hlen]
      simp only [List.map_cons]
      rw [List.pairwise_cons]
      constructor
      · intro a ha
        simp only [List.mem_map] at ha
        obtain ⟨p, hp, hpa⟩ := ha
        obtain ⟨year, hyear, hsome⟩ := List.mem_filterMap.mp hp
        have hfst : p.1 = year := by
          by_cases hl2 : (candidateFilter repos year).length > 0
          · rw [if_pos hl2] at hsome; cases hsome; rfl
          · rw [if_neg hl2] at hsome; cases hsome
        rw [← hpa, hfst]
        exact h.1 year hyear
      · exact ih h.2
    · rw [if_neg hlen]
      exact ih h.2

/-- The processing order of the aggregator is strictly descending. -/
theorem processedYears_strict_desc (repos : List GitHubRepository)
    (month day startYear endYear : Int) :
    (processedYears (findActiveReposOnDate repos month day startYear endYear)).Pairwise
      (· > ·) := by
  apply sortYearsDesc_strict
  exact (findActiveReposOnDate_keys_pairwise repos month day startYear endYear).imp
    (fun hab => by omega)

theorem lookup_mem {α β : Type} [BEq α] [LawfulBEq α] (l : List (α × β)) (a : α) (b : β)
    (h : l.lookup a = some b) : (a, b) ∈ l := by
  induction l with
  | nil => simp [List.lookup] at h
  | cons p t ih =>
    rw [List.lookup_cons] at h
    by_cases he : a == p.1
    · simp only [he] at h
      cases h
      have ha : a = p.1 := by simpa using he
      cases p; simp_all
    · simp only [Bool.not_eq_true] at he
      simp only [he] at h
      right; exact ih h

/-- The aggregator result is the per-year optional contributions of the
processed years, in processing order. -/
theorem getContributionsOnDate_eq (host : Host) (username : String)
    (repos : List GitHubRepository) (month day startYear endYear : Int) :
    getContributionsOnDate host username repos month day startYear endYear =
      (processedYears (findActiveReposOnDate repos month day startYear endYear)).filterMap
        (planEntryContribution host username month day
          (findActiveReposOnDate repos month day startYear endYear)) := by
  unfold getContributionsOnDate
  generalize findActiveReposOnDate repos month day startYear endYear = plan
  suffices h : ∀ (ys : List Int) (acc : List Contribution),
      ys.foldl (fun contributions year =>
        contributions ++ (planEntryContribution host username month day plan year).toList) acc =
      acc ++ ys.filterMap (planEntryContribution host username month day plan) by
    simpa using h (processedYears plan) []
  intro ys
  induction ys with
  | nil => intro acc; simp
  | cons y t ih =>
    intro acc
    simp only [List.foldl_cons, List.filterMap_cons]
    cases hpec : planEntryContribution host username month day plan y with
    | none => rw [ih]; simp
    | some c => rw [ih]; simp

/-- What a successful per-year loop iteration means. -/
theorem planEntryContribution_some (host : Host) (username : String) (month day : Int)
    (plan : List (Int × List GitHubRepository)) (year : Int) (c : Contribution)
    (h : planEntryContribution host username month day plan year = some c) :
    ∃ activeRepos, (year, activeRepos) ∈ plan ∧
      c = getContributionsFromActiveRepos host username year month day activeRepos ∧
      c.year = year ∧ (c.commits.length > 0 ∨ c.pullRequests.length > 0) := by
  unfold planEntryContribution at h
  cases hlk : plan.lookup year with
  | none => rw [hlk] at h; dsimp only at h; cases h
  | some activeRepos =>
    rw [hlk] at h
    dsimp only at h
    by_cases hlen : activeRepos.length > 0
    · rw [if_pos hlen] at h
      by_cases hne : (getContributionsFromActiveRepos host username year month day
          activeRepos).commits.length > 0 ∨
          (getContributionsFromActiveRepos host username year month day
            activeRepos).pullRequests.length > 0
      · rw [if_pos hne] at h
        cases h
        refine ⟨activeRepos, lookup_mem plan year activeRepos hlk, rfl, ?_, hne⟩
        have : (getContributionsFromActiveRepos host username year month day
            activeRepos).year = year := by
          unfold getContributionsFromActiveRepos getContributionsFromActiveReposT
          rfl
        exact this
      · rw [if_neg hne] at h
        cases h
    · rw [if_neg hlen] at h
      cases h

/-- Membership in the final ContributionSet. -/
theorem mem_getContributionsOnDate (host : Host) (username : String)
    (repos : List GitHubRepository) (month day startYear endYear : Int) (c : Contribution) :
    c ∈ getContributionsOnDate host username repos month day startYear endYear ↔
      ∃ y ∈ processedYears (findActiveReposOnDate repos month day startYear endYear),
        planEntryContribution host username month day
          (findActiveReposOnDate repos month day startYear endYear) y = some c := by
  rw [getContributionsOnDate_eq, List.mem_filterMap]

theorem pairwise_filterMap_contributions (f : Int → Option Contribution)
    (hf : ∀ y c, f y = some c → c.year = y) :
    ∀ l : List Int, l.Pairwise (· > ·) →
      (l.filterMap f).Pairwise (fun a b => a.year > b.year) := by
  intro l
  induction l with
  | nil => intro _; simp
  | cons x xs ih =>
    intro h
    rw [List.pairwise_cons] at h
    rw [List.filterMap_cons]
    cases hx : f x with
    | none => exact ih h.2
    | some c =>
      rw [List.pairwise_cons]
      refine ⟨?_, ih h.2⟩
      intro b hb
      obtain ⟨y, hy, hyb⟩ := List.mem_filterMap.mp hb
      have hby : b.year = y := hf y b hyb
      have hcx : c.year = x := hf x c hx
      have := h.1 y hy
      omega

theorem planEntryContribution_year (host : Host) (username : String) (month day : Int)
    (plan : List (Int × List GitHubRepository)) (year : Int) (c : Contribution)
    (h : planEntryContribution host username month day plan year = some c) :
    c.year = year :=
  (planEntryContribution_some host username month day plan year c h).choose_spec.2.2.1

/-! ## Claims -/

/-- C1: for every repository record R and every year Y in
`[startYear, endYear]`, the candidate filter of the activity-plan builder (the
filter step of findActiveReposOnDate) selects R as a candidate for Y if
and only if R is in the inventory and `R.createdYear ≤ Y` and
(`R.updatedYear ≥ Y` or `R.pushedYear ≥ Y`). -/
theorem claim_C1 (repos : List GitHubRepository) (startYear endYear Y : Int)
    (R : GitHubRepository) (h1 : startYear ≤ Y) (h2 : Y ≤ endYear) :
    R ∈ candidateFilter repos Y ↔
      R ∈ repos ∧ (R.createdYear ≤ Y ∧ (R.updatedYear ≥ Y ∨ R.pushedYear ≥ Y)) := by
  unfold candidateFilter
  rw [List.mem_filter]
  simp only [Bool.and_eq_true, Bool.or_eq_true, decide_eq_true_eq]

def repoC1 : GitHubRepository :=
  { name := "alpha", ownerLogin := "alice", createdYear := 2019,
    updatedYear := 2021, pushedYear := 2019 }

theorem claim_C1_witness :
    ((2019 : Int) ≤ 2020 ∧ (2020 : Int) ≤ 2021) ∧
      (repoC1 ∈ candidateFilter [repoC1] 2020 ↔
        repoC1 ∈ [repoC1] ∧
          (repoC1.createdYear ≤ 2020 ∧
            (repoC1.updatedYear ≥ 2020 ∨ repoC1.pushedYear ≥ 2020))) :=
  ⟨⟨by decide, by decide⟩, claim_C1 [repoC1] 2019 2021 2020 repoC1 (by decide) (by decide)⟩

/-- C6: every candidate list of the ActivityPlan has length at most the
cap 10 and is the prefix truncation (`take MAX_REPOS_PER_YEAR`) of the
filtered inventory, hence an order-preserving sublist of the inventory
most-recently-updated input ordering. -/
theorem claim_C6 (repos : List GitHubRepository) (month day startYear endYear y : Int)
    (l : List GitHubRepository)
    (h : (y, l) ∈ findActiveReposOnDate repos month day startYear endYear) :
    l.length ≤ 10 ∧ l = (candidateFilter repos y).take MAX_REPOS_PER_YEAR ∧
      l.Sublist repos := by
  rw [mem_findActiveReposOnDate] at h
  obtain ⟨hy, hlen, hl⟩ := h
  subst hl
  refine ⟨?_, rfl, ?_⟩
  · simpa [MAX_REPOS_PER_YEAR] using
      (List.length_take_le MAX_REPOS_PER_YEAR (candidateFilter repos y))
  · refine (List.take_sublist _ _).trans ?_
    unfold candidateFilter
    exact List.filter_sublist _

def repoC6 : GitHubRepository :=
  { name := "beta", ownerLogin := "alice", createdYear := 2020,
    updatedYear := 2020, pushedYear := 2020 }

theorem claim_C6_witness :
    (2020, [repoC6]) ∈ findActiveReposOnDate [repoC6] 9 14 2020 2020 ∧
      ([repoC6].length ≤ 10 ∧
        [repoC6] = (candidateFilter [repoC6] 2020).take MAX_REPOS_PER_YEAR ∧
        List.Sublist [repoC6] [repoC6]) :=
  ⟨by decide, claim_C6 [repoC6] 9 14 2020 2020 2020 [repoC6] (by decide)⟩

/-- C4: the aggregator processes years newest-first (the processing order
is strictly descending) and the resulting ContributionSet is sorted by
year strictly descending. -/
theorem claim_C4 (host : Host) (username : String) (repos : List GitHubRepository)
    (month day startYear endYear : Int) :
    (processedYears (findActiveReposOnDate repos month day startYear endYear)).Pairwise
        (· > ·) ∧
      (getContributionsOnDate host username repos month day startYear endYear).Pairwise
        (fun a b => a.year > b.year) := by
  refine ⟨processedYears_strict_desc repos month day startYear endYear, ?_⟩
  rw [getContributionsOnDate_eq]
  exact pairwise_filterMap_contributions _
    (fun y c h => planEntryContribution_year host username month day _ y c h)
    _ (processedYears_strict_desc repos month day startYear endYear)

/-- C9: a discovery run with an inverted year range (`startYear >
endYear`) or with an empty repository inventory returns the empty
ContributionSet; the embedding is a total function, so no error is
raised on this path. -/
theorem claim_C9 (host : Host) (username : String) (repos : List GitHubRepository)
    (month day startYear endYear : Int)
    (h : startYear > endYear ∨ repos = []) :
    getContributionsOnDate host username repos month day startYear endYear = [] := by
  have hplan : findActiveReposOnDate repos month day startYear endYear = [] := by
    rcases h with h | h
    · unfold findActiveReposOnDate
      have hyr : yearRange startYear endYear = [] := by
        unfold yearRange
        have : (endYear + 1 - startYear).toNat = 0 := by omega
        rw [this]
        rfl
      rw [hyr]
      rfl
    · subst h
      unfold findActiveReposOnDate
      have hcf : ∀ y : Int, candidateFilter [] y = [] := fun _ => rfl
      induction (yearRange startYear endYear) with
      | nil => rfl
      | cons x xs ih =>
        rw [List.filterMap_cons]
        simpa [hcf x] using ih
  rw [getContributionsOnDate_eq, hplan]
  rfl

theorem claim_C9_witness :
    ((2024 : Int) > 2020 ∨ ([] : List GitHubRepository) = []) ∧
      getContributionsOnDate
        { commitsRaw := fun _ _ _ _ => Except.ok [],
          pullsRaw := fun _ _ _ => Except.ok [] }
        "alice" [] 9 14 2024 2020 = [] :=
  ⟨Or.inl (by decide),
    claim_C9 _ "alice" [] 9 14 2024 2020 (Or.inl (by decide))⟩

/-- Unpacking the commit contribution of one repository. -/
theorem mem_repoCommitsOrEmpty (host : Host) (username : String)
    (targetDate nextDay : DateTime) (r : GitHubRepository) (cm : GitHubCommit)
    (h : cm ∈ repoCommitsOrEmpty host username targetDate nextDay r) :
    ∃ cs raw, host.commitsRaw username r.name targetDate nextDay = Except.ok cs ∧
      raw ∈ cs ∧ cm = toGitHubCommit username r.name raw := by
  unfold repoCommitsOrEmpty at h
  cases hfetch : getCommitsForRepoOnDate host username r.name targetDate nextDay with
  | error e => rw [hfetch] at h; cases h
  | ok cs =>
    rw [hfetch] at h
    unfold getCommitsForRepoOnDate at hfetch
    cases hraw : host.commitsRaw username r.name targetDate nextDay with
    | error e => rw [hraw] at hfetch; cases hfetch
    | ok raws =>
      rw [hraw] at hfetch
      simp only [Except.map] at hfetch
      cases hfetch
      obtain ⟨raw, hmem, hconv⟩ := List.mem_map.mp h
      exact ⟨raws, raw, rfl, hmem, hconv.symm⟩

/-- Unpacking the pull-request contribution of one repository: the produced
item comes from a raw item of the host response whose `created_at` passed
the local half-open-window filter. -/
theorem mem_repoPullsOrEmpty (host : Host) (username : String)
    (targetDate nextDay : DateTime) (r : GitHubRepository) (p : GitHubPullRequest)
    (h : p ∈ repoPullsOrEmpty host username targetDate nextDay r) :
    ∃ prs pr, host.pullsRaw username r.name targetDate = Except.ok prs ∧
      pr ∈ prs ∧ DateTime.le targetDate pr.created_at ∧ DateTime.lt pr.created_at nextDay ∧
      p = toGitHubPullRequest username r.name pr := by
  unfold repoPullsOrEmpty at h
  cases hfetch : getPullRequestsForRepoOnDate host username r.name targetDate nextDay with
  | error e => rw [hfetch] at h; cases h
  | ok ps =>
    rw [hfetch] at h
    unfold getPullRequestsForRepoOnDate at hfetch
    cases hraw : host.pullsRaw username r.name targetDate with
    | error e => rw [hraw] at hfetch; cases hfetch
    | ok prs =>
      rw [hraw] at hfetch
      simp only [Except.map] at hfetch
      cases hfetch
      obtain ⟨pr, hmem, hconv⟩ := List.mem_map.mp h
      have hfil := List.mem_filter.mp hmem
      simp only [Bool.and_eq_true, decide_eq_true_eq] at hfil
      exact ⟨prs, pr, rfl, hfil.1, hfil.2.1, hfil.2.2, hconv.symm⟩

theorem getContributionsFromActiveRepos_commits (host : Host) (username : String)
    (year month day : Int) (activeRepos : List GitHubRepository) :
    (getContributionsFromActiveRepos host username year month day activeRepos).commits =
      activeRepos.flatMap
        (repoCommitsOrEmpty host username (jsDate year month day)
          (jsDate year month (day + 1))) := by
  show (getCommitsFromActiveReposT host username year month day activeRepos).1 = _
  rw [getCommitsFromActiveReposT_eq]

theorem getContributionsFromActiveRepos_pulls (host : Host) (username : String)
    (year month day : Int) (activeRepos : List GitHubRepository) :
    (getContributionsFromActiveRepos host username year month day activeRepos).pullRequests =
      activeRepos.flatMap
        (repoPullsOrEmpty host username (jsDate year month day)
          (jsDate year month (day + 1))) := by
  show (getPullRequestsFromActiveReposT host username year month day activeRepos).1 = _
  rw [getPullRequestsFromActiveReposT_eq]

/-- C2 (amended): only the superseded legacy fetcher conditions the
pull-request call on the commit result — there, a repository whose commit
fetch returned zero commits never gets a pulls request.  The live per-year
detail fetch (ContributionsAPI with PullRequestAPI) issues one pulls
request for every candidate repository, unconditionally and in parallel
with the commits loop. -/
theorem claim_C2_amended :
    (∀ (host : Host) (username : String) (year month day : Int)
        (activeRepos : List GitHubRepository) (r : GitHubRepository),
      r ∈ activeRepos →
      host.commitsRaw username r.name (jsDate year month day) (jsDate year month (day + 1)) =
        Except.ok [] →
      ApiRequest.pullsReq r.name ∉
        (legacyGetContributionsFromActiveReposT host username year month day activeRepos).2) ∧
    (∀ (host : Host) (username : String) (year month day : Int)
        (activeRepos : List GitHubRepository) (r : GitHubRepository),
      r ∈ activeRepos →
      ApiRequest.pullsReq r.name ∈
        (getContributionsFromActiveReposT host username year month day activeRepos).2) := by
  constructor
  · intro host username year month day activeRepos r hr hok hmem
    rw [legacyGetContributionsFromActiveReposT_eq] at hmem
    simp only at hmem
    obtain ⟨r2, hr2, hin⟩ := List.mem_flatMap.mp hmem
    unfold legacyRepoTrace at hin
    rcases List.mem_cons.mp hin with heq | hin
    · cases heq
    · cases hfetch : getCommitsForRepoOnDate host username r2.name
        (jsDate year month day) (jsDate year month (day + 1)) with
      | error e => rw [hfetch] at hin; dsimp only at hin; cases hin
      | ok cs =>
        rw [hfetch] at hin
        dsimp only at hin
        by_cases hlen : cs.length > 0
        · rw [if_pos hlen] at hin
          rcases List.mem_cons.mp hin with heq | hin2
          · -- the pulls request is for r2, so r2 and r share a name; but then
            -- their commit oracles coincide and the r2 commit list is empty
            have hname : r.name = r2.name := by simpa using heq
            rw [← hname] at hfetch
            unfold getCommitsForRepoOnDate at hfetch
            rw [hok] at hfetch
            simp only [Except.map, List.map_nil] at hfetch
            cases hfetch
            simp at hlen
          · cases hin2
        · rw [if_neg hlen] at hin
          cases hin
  · intro host username year month day activeRepos r hr
    show ApiRequest.pullsReq r.name ∈
      (getCommitsFromActiveReposT host username year month day activeRepos).2 ++
        (getPullRequestsFromActiveReposT host username year month day activeRepos).2
    rw [getPullRequestsFromActiveReposT_eq]
    exact List.mem_append_right _ (List.mem_map.mpr ⟨r, hr, rfl⟩)

def hostC2 : Host :=
  { commitsRaw := fun _ _ _ _ => Except.ok []
    pullsRaw := fun _ _ _ => Except.ok [] }

def repoC2 : GitHubRepository :=
  { name := "gamma", ownerLogin := "alice", createdYear := 2023,
    updatedYear := 2023, pushedYear := 2023 }

/-- C2 fails on the live code path: a candidate repository whose commit
fetch returns zero commits still receives a pull-request request from the
live per-year detail fetch. -/
theorem claim_C2_counterexample :
    (getContributionsFromActiveRepos hostC2 "alice" 2023 9 14 [repoC2]).commits = [] ∧
      ApiRequest.pullsReq "gamma" ∈
        (getContributionsFromActiveReposT hostC2 "alice" 2023 9 14 [repoC2]).2 := by
  decide

theorem claim_C2_witness :
    (repoC2 ∈ [repoC2] ∧
      hostC2.commitsRaw "alice" repoC2.name (jsDate 2023 9 14) (jsDate 2023 9 15) =
        Except.ok []) ∧
      (ApiRequest.pullsReq repoC2.name ∉
        (legacyGetContributionsFromActiveReposT hostC2 "alice" 2023 9 14 [repoC2]).2 ∧
       ApiRequest.pullsReq repoC2.name ∈
        (getContributionsFromActiveReposT hostC2 "alice" 2023 9 14 [repoC2]).2) :=
  ⟨⟨by decide, rfl⟩,
    claim_C2_amended.1 hostC2 "alice" 2023 9 14 [repoC2] repoC2 (by decide) rfl,
    claim_C2_amended.2 hostC2 "alice" 2023 9 14 [repoC2] repoC2 (by decide)⟩

/-- C8: failure isolation in the live per-year detail fetch: when the
commit fetch of some candidate repository throws, the fetch still
completes and its result is exactly the concatenation of the individually
fetched per-repository data — the failing repository contributes nothing
and the data of every other repository is present. -/
theorem claim_C8 (host : Host) (username : String) (year month day : Int)
    (activeRepos : List GitHubRepository) (b : GitHubRepository) (e : String)
    (hmem : b ∈ activeRepos)
    (herr : host.commitsRaw username b.name (jsDate year month day)
      (jsDate year month (day + 1)) = Except.error e) :
    (getContributionsFromActiveRepos host username year month day activeRepos).commits =
      activeRepos.flatMap
        (repoCommitsOrEmpty host username (jsDate year month day)
          (jsDate year month (day + 1))) ∧
    (getContributionsFromActiveRepos host username year month day activeRepos).pullRequests =
      activeRepos.flatMap
        (repoPullsOrEmpty host username (jsDate year month day)
          (jsDate year month (day + 1))) ∧
    repoCommitsOrEmpty host username (jsDate year month day)
      (jsDate year month (day + 1)) b = [] := by
  refine ⟨getContributionsFromActiveRepos_commits host username year month day activeRepos,
    getContributionsFromActiveRepos_pulls host username year month day activeRepos, ?_⟩
  unfold repoCommitsOrEmpty getCommitsForRepoOnDate
  rw [herr]
  rfl

def hostC8 : Host :=
  { commitsRaw := fun _ repoName _ _ =>
      if repoName = "bad" then Except.error "boom"
      else Except.ok [{ message := "fix", htmlUrl := "u1",
                        authorDate := ⟨2023, 9, 14, 10, 0, 0⟩ }]
    pullsRaw := fun _ _ _ => Except.ok [] }

def repoC8bad : GitHubRepository :=
  { name := "bad", ownerLogin := "alice", createdYear := 2023,
    updatedYear := 2023, pushedYear := 2023 }

def repoC8good : GitHubRepository :=
  { name := "good", ownerLogin := "alice", createdYear := 2023,
    updatedYear := 2023, pushedYear := 2023 }

theorem claim_C8_witness :
    (repoC8bad ∈ [repoC8good, repoC8bad] ∧
      hostC8.commitsRaw "alice" repoC8bad.name (jsDate 2023 9 14) (jsDate 2023 9 15) =
        Except.error "boom") ∧
    ((getContributionsFromActiveRepos hostC8 "alice" 2023 9 14
        [repoC8good, repoC8bad]).commits =
      [repoC8good, repoC8bad].flatMap
        (repoCommitsOrEmpty hostC8 "alice" (jsDate 2023 9 14) (jsDate 2023 9 15)) ∧
     (getContributionsFromActiveRepos hostC8 "alice" 2023 9 14
        [repoC8good, repoC8bad]).pullRequests =
      [repoC8good, repoC8bad].flatMap
        (repoPullsOrEmpty hostC8 "alice" (jsDate 2023 9 14) (jsDate 2023 9 15)) ∧
     repoCommitsOrEmpty hostC8 "alice" (jsDate 2023 9 14) (jsDate 2023 9 15) repoC8bad = []) ∧
    (getContributionsFromActiveRepos hostC8 "alice" 2023 9 14
      [repoC8good, repoC8bad]).commits.length = 1 :=
  ⟨⟨by decide, rfl⟩,
    claim_C8 hostC8 "alice" 2023 9 14 [repoC8good, repoC8bad] repoC8bad "boom"
      (by decide) rfl,
    by decide⟩

/-- C5: whenever the host answers the (lower-bound-only) pulls request
with a list of pull requests, the per-repository result consists of
exactly the pull requests whose `created_at` satisfies
`startDate ≤ created_at < endDate` — both directions of the iff — even
though the upstream request carried only the `since` lower bound. -/
theorem claim_C5 (host : Host) (username repoName : String)
    (startDate endDate : DateTime) (prs : List RawPullRequest)
    (h : host.pullsRaw username repoName startDate = Except.ok prs) :
    ∃ res, getPullRequestsForRepoOnDate host username repoName startDate endDate =
        Except.ok res ∧
      (∀ q ∈ res, DateTime.le startDate q.createdAt ∧ DateTime.lt q.createdAt endDate) ∧
      (∀ pr ∈ prs, DateTime.le startDate pr.created_at → DateTime.lt pr.created_at endDate →
        toGitHubPullRequest username repoName pr ∈ res) ∧
      (∀ q ∈ res, ∃ pr ∈ prs, q = toGitHubPullRequest username repoName pr) := by
  refine ⟨(prs.filter (fun pr =>
      decide (DateTime.le startDate pr.created_at) &&
      decide (DateTime.lt pr.created_at endDate))).map
        (toGitHubPullRequest username repoName), ?_, ?_, ?_, ?_⟩
  · unfold getPullRequestsForRepoOnDate
    rw [h]
    rfl
  · intro q hq
    obtain ⟨pr, hpr, hconv⟩ := List.mem_map.mp hq
    have hfil := List.mem_filter.mp hpr
    simp only [Bool.and_eq_true, decide_eq_true_eq] at hfil
    have hcreated : q.createdAt = pr.created_at := by rw [← hconv]; rfl
    rw [hcreated]
    exact hfil.2
  · intro pr hpr h1 h2
    refine List.mem_map.mpr ⟨pr, ?_, rfl⟩
    refine List.mem_filter.mpr ⟨hpr, ?_⟩
    simp only [Bool.and_eq_true, decide_eq_true_eq]
    exact ⟨h1, h2⟩
  · intro q hq
    obtain ⟨pr, hpr, hconv⟩ := List.mem_map.mp hq
    exact ⟨pr, (List.mem_filter.mp hpr).1, hconv.symm⟩

def prsC5 : List RawPullRequest :=
  [{ title := "inside", htmlUrl := "p1",
     created_at := ⟨2023, 9, 14, 10, 0, 0⟩, state := "open" },
   { title := "outside", htmlUrl := "p2",
     created_at := ⟨2023, 9, 15, 0, 30, 0⟩, state := "closed" }]

def hostC5 : Host :=
  { commitsRaw := fun _ _ _ _ => Except.ok []
    pullsRaw := fun _ _ _ => Except.ok prsC5 }

theorem claim_C5_witness :
    (hostC5.pullsRaw "alice" "delta" ⟨2023, 9, 14, 0, 0, 0⟩ = Except.ok prsC5) ∧
    (∃ res, getPullRequestsForRepoOnDate hostC5 "alice" "delta"
        ⟨2023, 9, 14, 0, 0, 0⟩ ⟨2023, 9, 15, 0, 0, 0⟩ = Except.ok res ∧
      (∀ q ∈ res, DateTime.le ⟨2023, 9, 14, 0, 0, 0⟩ q.createdAt ∧
        DateTime.lt q.createdAt ⟨2023, 9, 15, 0, 0, 0⟩) ∧
      (∀ pr ∈ prsC5,
        DateTime.le ⟨2023, 9, 14, 0, 0, 0⟩ pr.created_at →
        DateTime.lt pr.created_at ⟨2023, 9, 15, 0, 0, 0⟩ →
        toGitHubPullRequest "alice" "delta" pr ∈ res) ∧
      (∀ q ∈ res, ∃ pr ∈ prsC5, q = toGitHubPullRequest "alice" "delta" pr)) :=
  ⟨rfl, claim_C5 hostC5 "alice" "delta" ⟨2023, 9, 14, 0, 0, 0⟩ ⟨2023, 9, 15, 0, 0, 0⟩
    prsC5 rfl⟩

/-- C7: every YearContribution in the final ContributionSet holds at least
one commit or pull request, and a year whose per-year fetch yields zero
commits and zero pull requests never appears in the result. -/
theorem claim_C7 (host : Host) (username : String) (repos : List GitHubRepository)
    (month day startYear endYear Y : Int) :
    (∀ c ∈ getContributionsOnDate host username repos month day startYear endYear,
       c.commits ≠ [] ∨ c.pullRequests ≠ []) ∧
    ((∀ l, (Y, l) ∈ findActiveReposOnDate repos month day startYear endYear →
        (getContributionsFromActiveRepos host username Y month day l).commits = [] ∧
        (getContributionsFromActiveRepos host username Y month day l).pullRequests = []) →
      ∀ c ∈ getContributionsOnDate host username repos month day startYear endYear,
        c.year ≠ Y) := by
  constructor
  · intro c hc
    obtain ⟨y, hy, hpec⟩ := (mem_getContributionsOnDate host username repos month day
      startYear endYear c).mp hc
    obtain ⟨l, hmem, hceq, hyear, hne⟩ :=
      planEntryContribution_some host username month day _ y c hpec
    rcases hne with hne | hne
    · exact Or.inl (List.length_pos.mp hne)
    · exact Or.inr (List.length_pos.mp hne)
  · intro hEmpty c hc hyc
    obtain ⟨y, hy, hpec⟩ := (mem_getContributionsOnDate host username repos month day
      startYear endYear c).mp hc
    obtain ⟨l, hmem, hceq, hyear, hne⟩ :=
      planEntryContribution_some host username month day _ y c hpec
    have hyY : y = Y := by rw [← hyear, hyc]
    rw [hyY] at hmem hceq
    obtain ⟨hc0, hp0⟩ := hEmpty l hmem
    rcases hne with hne | hne
    · rw [hceq, hc0] at hne; simp at hne
    · rw [hceq, hp0] at hne; simp at hne

def hostC7 : Host :=
  { commitsRaw := fun _ _ s _ =>
      if s.year = 2022 then
        Except.ok [{ message := "fix", htmlUrl := "u1",
                     authorDate := ⟨2022, 9, 14, 10, 0, 0⟩ }]
      else Except.ok []
    pullsRaw := fun _ _ _ => Except.ok [] }

def repoC7 : GitHubRepository :=
  { name := "epsilon", ownerLogin := "alice", createdYear := 2021,
    updatedYear := 2023, pushedYear := 2023 }

def contribC7 : Contribution :=
  { year := 2022
    commits := [{ message := "fix", url := "u1",
                  repository := { name := "epsilon", ownerLogin := "alice" },
                  pushedDate := ⟨2022, 9, 14, 10, 0, 0⟩ }]
    pullRequests := [] }

theorem claim_C7_witness :
    contribC7 ∈ getContributionsOnDate hostC7 "alice" [repoC7] 9 14 2022 2023 ∧
      (contribC7.commits ≠ [] ∨ contribC7.pullRequests ≠ []) ∧
      contribC7.year ≠ 2023 :=
  ⟨by decide,
    (claim_C7 hostC7 "alice" [repoC7] 9 14 2022 2023 2023).1 contribC7 (by decide),
    (claim_C7 hostC7 "alice" [repoC7] 9 14 2022 2023 2023).2
      (by
        intro l hl
        have hleq : l = [repoC7] := by
          have := (mem_findActiveReposOnDate [repoC7] 9 14 2022 2023 2023 l).mp hl
          rw [this.2.2]
          decide
        rw [hleq]
        constructor <;> decide)
      contribC7 (by decide)⟩

/-- C10: every commit and pull request in the final result carries a
repository identity whose owner login is the username the run was invoked
with (never the owner login the host reported for the repository) and
whose name is the name of one of the inventory repositories. -/
theorem claim_C10 (host : Host) (username : String) (repos : List GitHubRepository)
    (month day startYear endYear : Int) :
    ∀ c ∈ getContributionsOnDate host username repos month day startYear endYear,
      (∀ cm ∈ c.commits, cm.repository.ownerLogin = username ∧
        cm.repository.name ∈ repos.map (fun r => r.name)) ∧
      (∀ p ∈ c.pullRequests, p.repository.ownerLogin = username ∧
        p.repository.name ∈ repos.map (fun r => r.name)) := by
  intro c hc
  obtain ⟨y, hy, hpec⟩ := (mem_getContributionsOnDate host username repos month day
    startYear endYear c).mp hc
  obtain ⟨l, hmem, hceq, hyear, hne⟩ :=
    planEntryContribution_some host username month day _ y c hpec
  have hlsub : ∀ r ∈ l, r ∈ repos := by
    intro r hr
    have h6 := (mem_findActiveReposOnDate repos month day startYear endYear y l).mp hmem
    rw [h6.2.2] at hr
    have hrf := List.mem_of_mem_take hr
    unfold candidateFilter at hrf
    exact List.mem_of_mem_filter hrf
  constructor
  · intro cm hcm
    rw [hceq, getContributionsFromActiveRepos_commits] at hcm
    obtain ⟨r, hr, hin⟩ := List.mem_flatMap.mp hcm
    obtain ⟨cs, raw, hok, hraw, hconv⟩ :=
      mem_repoCommitsOrEmpty host username _ _ r cm hin
    rw [hconv]
    exact ⟨rfl, List.mem_map.mpr ⟨r, hlsub r hr, rfl⟩⟩
  · intro p hp
    rw [hceq, getContributionsFromActiveRepos_pulls] at hp
    obtain ⟨r, hr, hin⟩ := List.mem_flatMap.mp hp
    obtain ⟨prs, pr, hok, hpr, hle, hlt, hconv⟩ :=
      mem_repoPullsOrEmpty host username _ _ r p hin
    rw [hconv]
    exact ⟨rfl, List.mem_map.mpr ⟨r, hlsub r hr, rfl⟩⟩

def hostC10 : Host :=
  { commitsRaw := fun _ _ _ _ =>
      Except.ok [{ message := "fix", htmlUrl := "u1",
                   authorDate := ⟨2023, 9, 14, 10, 0, 0⟩ }]
    pullsRaw := fun _ _ _ => Except.ok [] }

/-- A repository whose host-reported owner login differs from the
username the run is invoked with. -/
def repoC10 : GitHubRepository :=
  { name := "zeta", ownerLogin := "org", createdYear := 2023,
    updatedYear := 2023, pushedYear := 2023 }

def contribC10 : Contribution :=
  { year := 2023
    commits := [{ message := "fix", url := "u1",
                  repository := { name := "zeta", ownerLogin := "alice" },
                  pushedDate := ⟨2023, 9, 14, 10, 0, 0⟩ }]
    pullRequests := [] }

def commitC10 : GitHubCommit :=
  { message := "fix", url := "u1",
    repository := { name := "zeta", ownerLogin := "alice" },
    pushedDate := ⟨2023, 9, 14, 10, 0, 0⟩ }

theorem claim_C10_witness :
    (contribC10 ∈ getContributionsOnDate hostC10 "alice" [repoC10] 9 14 2023 2023 ∧
      commitC10 ∈ contribC10.commits ∧ repoC10.ownerLogin = "org") ∧
    (commitC10.repository.ownerLogin = "alice" ∧
      commitC10.repository.name ∈ [repoC10].map (fun r => r.name)) :=
  ⟨⟨by decide, by decide, by decide⟩,
    ((claim_C10 hostC10 "alice" [repoC10] 9 14 2023 2023 contribC10 (by decide)).1
      commitC10 (by decide))⟩

/-- C3 (amended): under a host that honors the half-open commits window
(`since ≤ authorDate < until`) and returns calendar-valid timestamps,
every commit and pull request of the YearContribution for year Y has a
date with year Y and the target month/day — **provided the target
(month, day) is a valid calendar date in year Y**.  (Without that proviso
the claim fails: JS `new Date(Y, 1, 29)` rolls a Feb-29 target over to
Mar 1 in a non-leap year Y, see the counterexample.)  The commit half of
the invariant rests on the host honoring `since`/`until` — the engine
sends the window bounds and never re-checks commit dates locally — while
the pull-request half needs no window assumption because the engine
filters pull requests locally. -/
theorem claim_C3_amended (host : Host) (username : String)
    (repos : List GitHubRepository) (month day startYear endYear : Int)
    (hm1 : 1 ≤ month) (hm2 : month ≤ 12) (hd1 : 1 ≤ day)
    (hcw : ∀ u r s e cs, host.commitsRaw u r s e = Except.ok cs →
      ∀ c ∈ cs, DateTime.le s c.authorDate ∧ DateTime.lt c.authorDate e ∧
        c.authorDate.valid)
    (hpv : ∀ u r s prs, host.pullsRaw u r s = Except.ok prs →
      ∀ p ∈ prs, p.created_at.valid) :
    ∀ yc ∈ getContributionsOnDate host username repos month day startYear endYear,
      day ≤ daysInMonth yc.year month →
      (∀ c ∈ yc.commits, c.pushedDate.year = yc.year ∧ c.pushedDate.month = month ∧
        c.pushedDate.day = day) ∧
      (∀ p ∈ yc.pullRequests, p.createdAt.year = yc.year ∧ p.createdAt.month = month ∧
        p.createdAt.day = day) := by
  intro yc hyc hday
  obtain ⟨y, hy, hpec⟩ := (mem_getContributionsOnDate host username repos month day
    startYear endYear yc).mp hyc
  obtain ⟨l, hmem, hceq, hyear, hne⟩ :=
    planEntryContribution_some host username month day _ y yc hpec
  rw [hyear] at hday
  constructor
  · intro c hc
    rw [hceq, getContributionsFromActiveRepos_commits] at hc
    obtain ⟨r, hr, hin⟩ := List.mem_flatMap.mp hc
    obtain ⟨cs, raw, hok, hraw, hconv⟩ :=
      mem_repoCommitsOrEmpty host username _ _ r c hin
    obtain ⟨hle, hlt, hvalid⟩ := hcw username r.name _ _ cs hok raw hraw
    have hpd : c.pushedDate = raw.authorDate := by rw [hconv]; rfl
    have hcomp := window_components y month day raw.authorDate hm1 hm2 hd1 hday
      hvalid hle hlt
    rw [hpd, hyear]
    exact hcomp
  · intro p hp
    rw [hceq, getContributionsFromActiveRepos_pulls] at hp
    obtain ⟨r, hr, hin⟩ := List.mem_flatMap.mp hp
    obtain ⟨prs, pr, hok, hpr, hle, hlt, hconv⟩ :=
      mem_repoPullsOrEmpty host username _ _ r p hin
    have hvalid := hpv username r.name _ prs hok pr hpr
    have hca : p.createdAt = pr.created_at := by rw [hconv]; rfl
    have hcomp := window_components y month day pr.created_at hm1 hm2 hd1 hday
      hvalid hle hlt
    rw [hca, hyear]
    exact hcomp

/-- A well-behaved host for exercising C3: it answers the commits request
with exactly the stocked commits falling in the requested half-open
window (what the real host `since`/`until` filtering provides), and the
pulls request with the stocked calendar-valid pull requests. -/
def windowHost (commits : List RawCommit) (pulls : List RawPullRequest) : Host :=
  { commitsRaw := fun _ _ s e =>
      Except.ok (commits.filter (fun c =>
        decide (DateTime.le s c.authorDate) && decide (DateTime.lt c.authorDate e) &&
        decide c.authorDate.valid))
    pullsRaw := fun _ _ _ =>
      Except.ok (pulls.filter (fun p => decide p.created_at.valid)) }

theorem windowHost_commits_window (commits : List RawCommit)
    (pulls : List RawPullRequest) :
    ∀ u r s e cs, (windowHost commits pulls).commitsRaw u r s e = Except.ok cs →
      ∀ c ∈ cs, DateTime.le s c.authorDate ∧ DateTime.lt c.authorDate e ∧
        c.authorDate.valid := by
  intro u r s e cs h c hc
  cases h
  have hfil := List.mem_filter.mp hc
  simp only [Bool.and_eq_true, decide_eq_true_eq] at hfil
  exact ⟨hfil.2.1.1, hfil.2.1.2, hfil.2.2⟩

theorem windowHost_pulls_valid (commits : List RawCommit)
    (pulls : List RawPullRequest) :
    ∀ u r s prs, (windowHost commits pulls).pullsRaw u r s = Except.ok prs →
      ∀ p ∈ prs, p.created_at.valid := by
  intro u r s prs h p hp
  cases h
  have hfil := List.mem_filter.mp hp
  simp only [decide_eq_true_eq] at hfil
  exact hfil.2

def repoC3 : GitHubRepository :=
  { name := "eta", ownerLogin := "alice", createdYear := 2023,
    updatedYear := 2023, pushedYear := 2023 }

/-- A commit on March 1st 2023: it falls inside the day window the engine
computes for the target (month 2, day 29) in the non-leap year 2023,
because `new Date(2023, 1, 29)` normalizes to March 1st. -/
def rawC3roll : RawCommit :=
  { message := "m", htmlUrl := "u", authorDate := ⟨2023, 3, 1, 10, 0, 0⟩ }

/-- C3 fails as stated: with a Feb-29 target and the non-leap year 2023 in
range, a discovery run against a host that honors the half-open window
places a March-1st commit in the YearContribution for 2023, whose
month/day (3, 1) differ from the target month/day (2, 29). -/
theorem claim_C3_counterexample :
    ((getContributionsOnDate (windowHost [rawC3roll] []) "alice" [repoC3]
        2 29 2023 2023).map
        (fun yc => (yc.year, yc.commits.map (fun c =>
          (c.pushedDate.year, c.pushedDate.month, c.pushedDate.day)))) =
      [(2023, [(2023, 3, 1)])]) ∧
    ¬ (∀ yc ∈ getContributionsOnDate (windowHost [rawC3roll] []) "alice" [repoC3]
          2 29 2023 2023,
        ∀ c ∈ yc.commits, c.pushedDate.year = yc.year ∧ c.pushedDate.month = 2 ∧
          c.pushedDate.day = 29) := by
  constructor
  · decide
  · decide

def rawC3in : RawCommit :=
  { message := "fix", htmlUrl := "u1", authorDate := ⟨2023, 9, 14, 10, 0, 0⟩ }

def rawC3out : RawCommit :=
  { message := "late", htmlUrl := "u2", authorDate := ⟨2023, 9, 15, 0, 30, 0⟩ }

def commitC3 : GitHubCommit :=
  { message := "fix", url := "u1",
    repository := { name := "eta", ownerLogin := "alice" },
    pushedDate := ⟨2023, 9, 14, 10, 0, 0⟩ }

def contribC3 : Contribution :=
  { year := 2023, commits := [commitC3], pullRequests := [] }

theorem claim_C3_witness :
    (contribC3 ∈ getContributionsOnDate (windowHost [rawC3in, rawC3out] []) "alice"
        [repoC3] 9 14 2023 2023 ∧
      commitC3 ∈ contribC3.commits ∧
      (getContributionsOnDate (windowHost [rawC3in, rawC3out] []) "alice"
        [repoC3] 9 14 2023 2023).map (fun yc => yc.commits.length) = [1]) ∧
    (commitC3.pushedDate.year = contribC3.year ∧ commitC3.pushedDate.month = 9 ∧
      commitC3.pushedDate.day = 14) :=
  ⟨⟨by decide, by decide, by decide⟩,
    ((claim_C3_amended (windowHost [rawC3in, rawC3out] []) "alice" [repoC3] 9 14 2023 2023
        (by decide) (by decide) (by decide)
        (windowHost_commits_window [rawC3in, rawC3out] [])
        (windowHost_pulls_valid [rawC3in, rawC3out] []))
      contribC3 (by decide) (by decide)).1 commitC3 (by decide)⟩
